import Mathlib

/-!
Verification development for the SHECARES food-analysis backend
(`backend/food_analysis.py`).

The file shallowly embeds the two pieces of logic of that module:

* `extract_json_from_text` — the normalizer that removes markdown code
  fences, strips surrounding whitespace and applies strict JSON parsing
  (Python `json.loads`), returning `none` when parsing fails;
* `analyse_food` — the `/analyse` request handler, with the external
  collaborators (the configured client flag, the file read, the Gemini
  `generate_content` call) passed in as explicit parameters.

Strings are modelled as `List Char`; Python `str.replace(p, "")` is
modelled by `replaceAll`, `str.strip()` by `pyStrip`, and `json.loads`
by a fuel-indexed recursive-descent parser over the strict JSON grammar
(objects, arrays, strings with escapes, numbers, literals, and the
Python extensions `NaN`/`Infinity`/`-Infinity`).
-/

/-- Strings of the embedded program: lists of characters. -/
abbrev Str := List Char

/-- JSON whitespace, as accepted by Python `json.loads` between tokens. -/
def isJsonWs (c : Char) : Bool :=
  c = ' ' || c = '\t' || c = '\n' || c = '\r'

/-- Whitespace stripped by Python `str.strip()`: every code point with
the Unicode whitespace property, as listed in CPython's character
database — `\t\n\v\f\r`, the information separators 0x1C–0x1F, space,
NEL, NBSP, OGHAM SPACE MARK, the U+2000–U+200A spaces, LINE SEPARATOR,
PARAGRAPH SEPARATOR, NARROW NBSP, MEDIUM MATHEMATICAL SPACE and
IDEOGRAPHIC SPACE. -/
def isPyWs (c : Char) : Bool :=
  let n := c.toNat
  (9 ≤ n && n ≤ 13) || (28 ≤ n && n ≤ 31) || n = 32 || n = 133 || n = 160 ||
  n = 0x1680 || (0x2000 ≤ n && n ≤ 0x200A) || n = 0x2028 || n = 0x2029 ||
  n = 0x202F || n = 0x205F || n = 0x3000

/-- Skip leading JSON whitespace. -/
def skipWs (s : Str) : Str := s.dropWhile isJsonWs

/-- Python `str.strip()`: drop whitespace from both ends. -/
def pyStrip (s : Str) : Str := (s.dropWhile isPyWs).rdropWhile isPyWs

/-- Fuel-driven worker for `replaceAll`; the fuel is an upper bound on
the length of the remaining input, so the fuel-exhausted branch is
unreachable for the fuel chosen in `replaceAll`. -/
def raGo (p : Str) : Nat → Str → Str
  | 0, _ => []
  | f + 1, s =>
    if p ≠ [] ∧ p.isPrefixOf s then
      raGo p f (s.drop p.length)
    else
      match s with
      | [] => []
      | c :: r => c :: raGo p f r

/-- Python `s.replace(p, "")`: delete every (leftmost, non-overlapping)
occurrence of the pattern `p` from `s`. -/
def replaceAll (p s : Str) : Str := raGo p s.length s

/-- The backtick character. -/
def btick : Char := Char.ofNat 96

/-- The long code-fence marker removed first by the normalizer. -/
def fenceJson : Str := "```json".toList

/-- The short code-fence marker removed second by the normalizer. -/
def fence : Str := "```".toList

section ReplaceAllEquations

theorem raGo_fuel_irrel (p : Str) :
    ∀ f g s, s.length ≤ f → s.length ≤ g → raGo p f s = raGo p g s := by
  intro f
  induction f with
  | zero =>
    intro g s hf _
    have hs : s = [] := List.length_eq_zero.mp (Nat.le_zero.mp hf)
    subst hs
    cases g with
    | zero => rfl
    | succ g =>
      simp only [raGo]
      have : ¬(p ≠ [] ∧ p.isPrefixOf ([] : Str)) := by
        rintro ⟨hne, hpre⟩
        have := List.isPrefixOf_iff_prefix.mp hpre
        exact hne (List.prefix_nil.mp this)
      rw [if_neg this]
  | succ f ih =>
    intro g s hf hg
    cases g with
    | zero =>
      have hs : s = [] := List.length_eq_zero.mp (Nat.le_zero.mp hg)
      subst hs
      simp only [raGo]
      have : ¬(p ≠ [] ∧ p.isPrefixOf ([] : Str)) := by
        rintro ⟨hne, hpre⟩
        have := List.isPrefixOf_iff_prefix.mp hpre
        exact hne (List.prefix_nil.mp this)
      rw [if_neg this]
    | succ g =>
      simp only [raGo]
      by_cases h : p ≠ [] ∧ p.isPrefixOf s
      · rw [if_pos h, if_pos h]
        have hple : 1 ≤ p.length := by
          have : p ≠ [] := h.1
          cases p with
          | nil => exact absurd rfl this
          | cons a l => simp
        have hd : (s.drop p.length).length ≤ f := by
          have : (s.drop p.length).length = s.length - p.length := by
            simp [List.length_drop]
          omega
        have hd' : (s.drop p.length).length ≤ g := by
          have : (s.drop p.length).length = s.length - p.length := by
            simp [List.length_drop]
          omega
        exact ih g (s.drop p.length) hd hd'
      · rw [if_neg h, if_neg h]
        cases s with
        | nil => rfl
        | cons c r =>
          have hr : r.length ≤ f := by
            simp only [List.length_cons] at hf; omega
          have hr' : r.length ≤ g := by
            simp only [List.length_cons] at hg; omega
          show c :: raGo p f r = c :: raGo p g r
          exact congrArg (c :: ·) (ih g r hr hr')

theorem replaceAll_nil (p : Str) : replaceAll p [] = [] := rfl

theorem replaceAll_pos {p s : Str} (hne : p ≠ []) (hpre : p <+: s) :
    replaceAll p s = replaceAll p (s.drop p.length) := by
  unfold replaceAll
  have hple : 1 ≤ p.length := by
    cases p with
    | nil => exact absurd rfl hne
    | cons a l => simp
  have hsl : 1 ≤ s.length := by
    have := hpre.length_le
    omega
  obtain ⟨n, hn⟩ : ∃ n, s.length = n + 1 := ⟨s.length - 1, by omega⟩
  rw [hn]
  simp only [raGo]
  rw [if_pos ⟨hne, List.isPrefixOf_iff_prefix.mpr hpre⟩]
  apply raGo_fuel_irrel
  · simp only [List.length_drop]; omega
  · exact le_rfl

theorem replaceAll_neg_cons {p : Str} (c : Char) (r : Str)
    (h : ¬(p <+: (c :: r))) :
    replaceAll p (c :: r) = c :: replaceAll p r := by
  have h' : ¬(p ≠ [] ∧ p.isPrefixOf (c :: r)) := by
    rintro ⟨-, hpre⟩
    exact h (List.isPrefixOf_iff_prefix.mp hpre)
  show raGo p (c :: r).length (c :: r) = c :: raGo p r.length r
  simp only [List.length_cons, raGo, if_neg h']

end ReplaceAllEquations

/-! ## JSON values and the strict parser modelling Python `json.loads` -/

/-- A JSON number kept in syntactic form: sign, integer digits, optional
fraction digits and optional exponent (sign, digits).  The program never
computes with numbers, so the syntactic form is the faithful model. -/
structure JNum where
  neg : Bool
  intDigits : Str
  fracDigits : Str
  expPart : Option (Bool × Str)
  deriving DecidableEq

/-- Parsed JSON values.  `nan` and `inf` model the Python extensions
`NaN`, `Infinity` and `-Infinity` accepted by `json.loads`. -/
inductive JValue where
  | null
  | bool (b : Bool)
  | num (n : JNum)
  | nan
  | inf (negSign : Bool)
  | str (s : Str)
  | arr (elems : List JValue)
  | obj (members : List (Str × JValue))

/-- Hexadecimal digit value. -/
def hexVal (c : Char) : Option Nat :=
  if c.isDigit then some (c.toNat - 48)
  else if 'a' ≤ c ∧ c ≤ 'f' then some (c.toNat - 87)
  else if 'A' ≤ c ∧ c ≤ 'F' then some (c.toNat - 55)
  else none

/-- Four hexadecimal digits of a `\uXXXX` escape. -/
def parseHex4 (s : Str) : Option (Nat × Str) :=
  match s with
  | c1 :: c2 :: c3 :: c4 :: r =>
    match hexVal c1, hexVal c2, hexVal c3, hexVal c4 with
    | some a, some b, some c, some d => some (((a * 16 + b) * 16 + c) * 16 + d, r)
    | _, _, _, _ => none
  | _ => none

/-- Single-character escapes of JSON strings. -/
def escChar (c : Char) : Option Char :=
  if c = '"' then some '"'
  else if c = '\\' then some '\\'
  else if c = '/' then some '/'
  else if c = 'b' then some (Char.ofNat 8)
  else if c = 'f' then some (Char.ofNat 12)
  else if c = 'n' then some '\n'
  else if c = 'r' then some '\r'
  else if c = 't' then some '\t'
  else none

/-- Body of a JSON string, positioned after the opening quote.  Raw
control characters are rejected (strict mode); escapes are decoded
(`\uXXXX` through `Char.ofNat`). -/
def strBody : Nat → Str → Option (Str × Str)
  | 0, _ => none
  | f + 1, s =>
    match s with
    | [] => none
    | '"' :: r => some ([], r)
    | '\\' :: rest =>
      match rest with
      | [] => none
      | 'u' :: r2 =>
        match parseHex4 r2 with
        | some (n, r3) =>
          match strBody f r3 with
          | some (cs, r4) => some (Char.ofNat n :: cs, r4)
          | none => none
        | none => none
      | c :: r2 =>
        match escChar c with
        | some e =>
          match strBody f r2 with
          | some (cs, r3) => some (e :: cs, r3)
          | none => none
        | none => none
    | c :: r =>
      if c.toNat < 32 then none
      else
        match strBody f r with
        | some (cs, r2) => some (c :: cs, r2)
        | none => none

/-- JSON string body with sufficient fuel. -/
def parseStr (s : Str) : Option (Str × Str) := strBody (s.length + 1) s

/-- Fraction part of a number: consumed only when a digit follows the
dot, matching the regex `(\.\d+)?`. -/
def parseFrac (s : Str) : Str × Str :=
  match s with
  | '.' :: r =>
    let fd := r.takeWhile (·.isDigit)
    if fd = [] then ([], s) else (fd, r.dropWhile (·.isDigit))
  | _ => ([], s)

/-- Optional exponent sign: `+` and `-` are consumed, anything else
leaves the input untouched. -/
def expSign (r : Str) : Bool × Str :=
  match r with
  | '+' :: r3 => (false, r3)
  | '-' :: r3 => (true, r3)
  | _ => (false, r)

/-- Exponent part of a number, matching the regex `([eE][-+]?\d+)?`:
consumed only when digits are present. -/
def parseExpPart (s : Str) : Option (Bool × Str) × Str :=
  match s with
  | c :: r =>
    if c = 'e' ∨ c = 'E' then
      let sr := expSign r
      let ed := sr.2.takeWhile (·.isDigit)
      if ed = [] then (none, s) else (some (sr.1, ed), sr.2.dropWhile (·.isDigit))
    else (none, s)
  | [] => (none, s)

/-- Optional leading minus sign of a number. -/
def negSign (s : Str) : Bool × Str :=
  match s with
  | '-' :: r => (true, r)
  | _ => (false, s)

/-- JSON number per the `json` module regex
`(-?(?:0|[1-9]\d*))(\.\d+)?([eE][-+]?\d+)?`. -/
def parseNumber (s : Str) : Option (JValue × Str) :=
  let ns := negSign s
  match ns.2 with
  | '0' :: r =>
    let fr := parseFrac r
    let ex := parseExpPart fr.2
    some (.num ⟨ns.1, ['0'], fr.1, ex.1⟩, ex.2)
  | c :: r =>
    if c.isDigit then
      let ds := (c :: r).takeWhile (·.isDigit)
      let rest := (c :: r).dropWhile (·.isDigit)
      let fr := parseFrac rest
      let ex := parseExpPart fr.2
      some (.num ⟨ns.1, ds, fr.1, ex.1⟩, ex.2)
    else none
  | [] => none

/-- Literal token (`null`, `true`, `false`, `NaN`, `Infinity`,
`-Infinity`). -/
def parseLit (lit : Str) (v : JValue) (s : Str) : Option (JValue × Str) :=
  if lit.isPrefixOf s then some (v, s.drop lit.length) else none

mutual

/-- JSON value, dispatched on the first character exactly as the
`json.scanner` does. -/
def parseValue : Nat → Str → Option (JValue × Str)
  | 0, _ => none
  | f + 1, s =>
    match s with
    | [] => none
    | '{' :: r =>
      match parseObjBody f (skipWs r) with
      | some (m, rest) => some (.obj m, rest)
      | none => none
    | '[' :: r =>
      match parseArrBody f (skipWs r) with
      | some (xs, rest) => some (.arr xs, rest)
      | none => none
    | '"' :: r =>
      match parseStr r with
      | some (cs, rest) => some (.str cs, rest)
      | none => none
    | c :: r =>
      if c = 'n' then parseLit "null".toList .null (c :: r)
      else if c = 't' then parseLit "true".toList (.bool true) (c :: r)
      else if c = 'f' then parseLit "false".toList (.bool false) (c :: r)
      else if c = 'N' then parseLit "NaN".toList .nan (c :: r)
      else if c = 'I' then parseLit "Infinity".toList (.inf false) (c :: r)
      else if c = '-' then
        match r with
        | 'I' :: _ => parseLit "-Infinity".toList (.inf true) (c :: r)
        | _ => parseNumber (c :: r)
      else if c.isDigit then parseNumber (c :: r)
      else none

/-- Array contents, positioned after `[` and whitespace. -/
def parseArrBody : Nat → Str → Option (List JValue × Str)
  | 0, _ => none
  | f + 1, s =>
    match s with
    | ']' :: r => some ([], r)
    | _ => parseArrItems f s

/-- One-or-more array items separated by commas. -/
def parseArrItems : Nat → Str → Option (List JValue × Str)
  | 0, _ => none
  | f + 1, s =>
    match parseValue f s with
    | none => none
    | some (v, r) =>
      match skipWs r with
      | ']' :: r2 => some ([v], r2)
      | ',' :: r2 =>
        match parseArrItems f (skipWs r2) with
        | some (vs, r3) => some (v :: vs, r3)
        | none => none
      | _ => none

/-- Object contents, positioned after `{` and whitespace. -/
def parseObjBody : Nat → Str → Option (List (Str × JValue) × Str)
  | 0, _ => none
  | f + 1, s =>
    match s with
    | '}' :: r => some ([], r)
    | _ => parseObjItems f s

/-- One-or-more `"key": value` members separated by commas. -/
def parseObjItems : Nat → Str → Option (List (Str × JValue) × Str)
  | 0, _ => none
  | f + 1, s =>
    match s with
    | '"' :: r =>
      match parseStr r with
      | none => none
      | some (k, r1) =>
        match skipWs r1 with
        | ':' :: r2 =>
          match parseValue f (skipWs r2) with
          | none => none
          | some (v, r3) =>
            match skipWs r3 with
            | '}' :: r4 => some ([(k, v)], r4)
            | ',' :: r4 =>
              match parseObjItems f (skipWs r4) with
              | some (ms, r5) => some ((k, v) :: ms, r5)
              | none => none
            | _ => none
        | _ => none
    | _ => none

end

/-- Python `json.loads`: skip leading whitespace, parse one value, and
accept only trailing whitespace.  The fuel bound `3·|s| + 3` dominates
the recursion depth of the scanner, every step of which consumes at
least one character per three fuel units. -/
def jsonParseE (s : Str) : Except String JValue :=
  match parseValue (3 * s.length + 3) (skipWs s) with
  | none => Except.error "Expecting value"
  | some (v, rest) =>
    if skipWs rest = [] then Except.ok v else Except.error "Extra data"

/-- `json.loads` with failure collapsed to `none`. -/
def jsonParse (s : Str) : Option JValue :=
  match jsonParseE s with
  | Except.ok v => some v
  | Except.error _ => none

/-- Decimal digits read as a natural number. -/
def digitsToNat (ds : Str) : Nat :=
  ds.foldl (fun a c => a * 10 + (c.toNat - 48)) 0

/-- Whether `json.loads` turns this number literal into the float `0.0`.
Python converts with correctly-rounded `strtod`, so the double is zero
exactly when the literal's value `m · 10^e` (with `m` the mantissa
digits and `e` the exponent minus the number of fraction digits) is at
most `2^-1075`: below that midpoint the value rounds down to zero, at
the midpoint round-half-even picks zero, above it the nearest double is
the smallest subnormal.  Underflowing literals such as `1e-999` are
therefore zero (falsy) even though their digits are not all `0`. -/
def jnumIsZero (n : JNum) : Bool :=
  let m := digitsToNat (n.intDigits ++ n.fracDigits)
  if m = 0 then
    true
  else
    let ev : Int :=
      (match n.expPart with
       | none => 0
       | some (sgn, ds) =>
         if sgn then -(digitsToNat ds : Int) else (digitsToNat ds : Int)) -
        (n.fracDigits.length : Int)
    if 0 ≤ ev then false
    else decide (m * 2 ^ 1075 ≤ 10 ^ (-ev).toNat)

/-- Python truthiness (`bool(x)`) of a value returned by `json.loads`:
`None`, `False`, zero and empty containers/strings are falsy. -/
def jvTruthy : JValue → Bool
  | .null => false
  | .bool b => b
  | .num n => !jnumIsZero n
  | .nan => true
  | .inf _ => true
  | .str s => !s.isEmpty
  | .arr xs => !xs.isEmpty
  | .obj m => !m.isEmpty

/-- First-match field lookup in a parsed object (used to state facts
about individual report fields). -/
def getField (v : JValue) (k : Str) : Option JValue :=
  match v with
  | .obj m => (m.find? (fun kv => kv.1 = k)).map (·.2)
  | _ => none

/-! ## The normalizer `extract_json_from_text` and the `/analyse` handler -/

/-- The two `str.replace` calls of the normalizer, in source order. -/
def stripFences (t : Str) : Str := replaceAll fence (replaceAll fenceJson t)

/-- Body of `extract_json_from_text` before the `except` clause: clean
the text and parse it; a parse failure is an exception (`Except.error`)
that the function's handler will turn into `none`. -/
def extractBody (text : Str) : Except String JValue :=
  jsonParseE (pyStrip (stripFences text))

/-- `extract_json_from_text` from `backend/food_analysis.py`: remove the
markdown code fences, strip whitespace, `json.loads` the remainder, and
return `None` when anything fails. -/
def extract_json_from_text (text : Str) : Option JValue :=
  match extractBody text with
  | Except.ok v => some v
  | Except.error _ => none

/-- The fixed instruction prompt of `analyse_food` (triple-quoted string
of the source, with its indentation). -/
def promptText : Str :=
  ("\n        You are a diet and health expert AI.\n        Analyze this food image and return a JSON response ONLY in this format:\n        \x7b\n          \"food_name\": \"string\",\n          \"calories\": \"string\",\n          \"protein\": \"string\",\n          \"carbs\": \"string\",\n          \"fats\": \"string\",\n          \"fiber\": \"string\",\n          \"pregnancy_safe\": true or false,\n          \"period_friendly\": true or false,\n          \"recommendations\": \"string\",\n          \"suggested_foods\": [\"food1\", \"food2\", \"food3\"]\n        \x7d\n\n        The output must be pure JSON, no markdown, no extra text.\n        ").toList

/-- An HTTP response produced by the handler: either a FastAPI
`HTTPException` (status code and `detail` body) or the success envelope
`\x7b"success": true, "source": ..., "report": ...\x7d`. -/
inductive AnalyseResult where
  | httpError (status : Nat) (detail : Str)
  | success (source : Str) (report : JValue)

/-- What leaves the handler: a response, or an exception that the
handler does not catch and that propagates to the framework. -/
inductive HandlerOutcome where
  | response (r : AnalyseResult)
  | unhandled (e : Str)

/-- Detail of the 400 response. -/
def detail400 : Str := "Invalid file type. Upload an image.".toList

/-- Detail of the 503 response. -/
def detail503 : Str := "Gemini AI not configured.".toList

/-- Detail of the 500 response: the fixed prefix followed by `str(e)`. -/
def failDetail (msg : Str) : Str := "Food analysis failed: ".toList ++ msg

/-- Message of the `ValueError` raised on an empty model response. -/
def emptyRespMsg : Str := "Empty analysis response from Gemini API".toList

/-- The provider name used in the success envelope. -/
def geminiSource : Str := "Gemini".toList

/-- Message of the `AttributeError` raised by
`None.startswith("image/")` when the upload has no content type. -/
def attrErrMsg : Str :=
  "AttributeError: NoneType object has no attribute startswith".toList

/-- The canonical default report substituted when `parsed_data` is falsy. -/
def defaultReport : JValue :=
  .obj [("food_name".toList, .str "Unknown".toList),
        ("calories".toList, .str "N/A".toList),
        ("protein".toList, .str "N/A".toList),
        ("carbs".toList, .str "N/A".toList),
        ("fats".toList, .str "N/A".toList),
        ("fiber".toList, .str "N/A".toList),
        ("pregnancy_safe".toList, .bool false),
        ("period_friendly".toList, .bool false),
        ("recommendations".toList, .str "Could not analyze the food image properly.".toList),
        ("suggested_foods".toList, .arr [])]

/-- Startup configuration (module lines 26–34): the client is configured
exactly when `GEMINI_API_KEY` is present and non-empty in the
environment; `os.getenv` yields `None` for an absent variable and
`if not GEMINI_API_KEY` treats the empty string as absent too. -/
def gemini_model_configured : Option Str → Bool
  | none => false
  | some k => !k.isEmpty

/-- The `/analyse` handler `analyse_food`.  Inputs:

* `configured` — whether `gemini_model` is non-`None`;
* `contentType` — the upload's declared media type (`none` models a
  missing `Content-Type` part header, where `file.content_type` is
  `None`);
* `readFile` — result of `await file.read()` (`Except.error` models an
  exception, carrying `str(e)`);
* `generate` — the `gemini_model.generate_content` collaborator applied
  to the prompt, the raw bytes and the declared media type; it returns
  `response.text` (`none` for a `None` text) or raises.

The `try` block starts after the two guard checks, so the guards'
`HTTPException`s become responses directly, while exceptions inside the
block surface as the 500 response; `None.startswith` raises an
`AttributeError` outside the `try`, which no handler catches. -/
def analyse_food (configured : Bool) (contentType : Option Str)
    (readFile : Except Str (List Nat))
    (generate : Str → List Nat → Str → Except Str (Option Str)) : HandlerOutcome :=
  if !configured then
    .response (.httpError 503 detail503)
  else
    match contentType with
    | none => .unhandled attrErrMsg
    | some ct =>
      if !(("image/".toList).isPrefixOf ct) then
        .response (.httpError 400 detail400)
      else
        match readFile with
        | .error e => .response (.httpError 500 (failDetail e))
        | .ok image_data =>
          match generate promptText image_data ct with
          | .error e => .response (.httpError 500 (failDetail e))
          | .ok text =>
            let result_text : Option Str :=
              match text with
              | none => none
              | some t => if t.isEmpty then none else some (pyStrip t)
            match result_text with
            | none => .response (.httpError 500 (failDetail emptyRespMsg))
            | some rt =>
              if rt.isEmpty then
                .response (.httpError 500 (failDetail emptyRespMsg))
              else
                let parsed_data := extract_json_from_text rt
                let report : JValue :=
                  match parsed_data with
                  | some v => if jvTruthy v then v else defaultReport
                  | none => defaultReport
                .response (.success geminiSource report)

/-- Everything the handler does after a successful
`generate_content` call, as a function of that call's result alone
(used to state that the model receives the bytes and media type
unmodified and that nothing after validation depends on them). -/
def afterModel (r : Except Str (Option Str)) : HandlerOutcome :=
  match r with
  | .error e => .response (.httpError 500 (failDetail e))
  | .ok text =>
    let result_text : Option Str :=
      match text with
      | none => none
      | some t => if t.isEmpty then none else some (pyStrip t)
    match result_text with
    | none => .response (.httpError 500 (failDetail emptyRespMsg))
    | some rt =>
      if rt.isEmpty then
        .response (.httpError 500 (failDetail emptyRespMsg))
      else
        let parsed_data := extract_json_from_text rt
        let report : JValue :=
          match parsed_data with
          | some v => if jvTruthy v then v else defaultReport
          | none => defaultReport
        .response (.success geminiSource report)

/-- The Normalizer as the specification describes it: strip the known
code-fence markers, trim whitespace, strictly parse, and return null on
failure. -/
def normalizerSpec (t : Str) : Option JValue := jsonParse (pyStrip (stripFences t))

/-- Code fences wrapped around a text, as in a markdown model reply. -/
def wrapFence (x : Str) : Str := fenceJson ++ x ++ fence

/-! ## Claims about the handler -/

/-- C1: with the client configured, an upload whose declared media type
does not begin with `image/` is answered 400 `Invalid file type. Upload
an image.`, whatever the file read and the model would do — so the file
is never read and the model is never invoked. -/
theorem C1_non_image_400 (ct : Str) (rd : Except Str (List Nat))
    (g : Str → List Nat → Str → Except Str (Option Str))
    (h : ("image/".toList).isPrefixOf ct = false) :
    analyse_food true (some ct) rd g = .response (.httpError 400 detail400) := by
  have h' : ¬(('i' :: 'm' :: 'a' :: 'g' :: 'e' :: '/' :: ([] : Str)) <+: ct) := by
    intro hp
    have hb : ("image/".toList).isPrefixOf ct = true := List.isPrefixOf_iff_prefix.mpr hp
    rw [hb] at h
    exact absurd h (by decide)
  simp [analyse_food, h']

/-- Witness for C1 at the media type `application/pdf`. -/
theorem C1_non_image_400_witness :
    ("image/".toList).isPrefixOf "application/pdf".toList = false ∧
    analyse_food true (some "application/pdf".toList) (.ok [])
      (fun _ _ _ => .ok none) = .response (.httpError 400 detail400) :=
  ⟨by decide, C1_non_image_400 "application/pdf".toList (.ok []) _ (by decide)⟩

/-- C2: with `GEMINI_API_KEY` absent (or empty) at startup the client is
unconfigured, and every request — any content type, including a missing
one, any read outcome, any model — is answered 503 `Gemini AI not
configured.`. -/
theorem C2_unconfigured_503 (key : Option Str)
    (hk : gemini_model_configured key = false)
    (ct : Option Str) (rd : Except Str (List Nat))
    (g : Str → List Nat → Str → Except Str (Option Str)) :
    analyse_food (gemini_model_configured key) ct rd g =
      .response (.httpError 503 detail503) := by
  simp [analyse_food, hk]

/-- Witness for C2 with the credential variable absent. -/
theorem C2_unconfigured_503_witness :
    gemini_model_configured none = false ∧
    analyse_food (gemini_model_configured none) (some "image/png".toList)
      (.ok []) (fun _ _ _ => .ok none) = .response (.httpError 503 detail503) :=
  ⟨rfl, C2_unconfigured_503 none rfl (some "image/png".toList) (.ok []) _⟩

/-- C3: on an accepted image upload, a read exception, a model
exception, a `None` response text and a whitespace-only response text
each produce the 500 response whose detail is `Food analysis failed: `
followed by the exception's message (for empty text, the message of the
raised `ValueError`). -/
theorem C3_failure_500 (ct : Str) (himg : ("image/".toList).isPrefixOf ct = true) :
    (∀ e g, analyse_food true (some ct) (.error e) g =
      .response (.httpError 500 (failDetail e))) ∧
    (∀ d g e, g promptText d ct = .error e →
      analyse_food true (some ct) (.ok d) g =
        .response (.httpError 500 (failDetail e))) ∧
    (∀ d g, g promptText d ct = .ok none →
      analyse_food true (some ct) (.ok d) g =
        .response (.httpError 500 (failDetail emptyRespMsg))) ∧
    (∀ d g t, g promptText d ct = .ok (some t) → pyStrip t = [] →
      analyse_food true (some ct) (.ok d) g =
        .response (.httpError 500 (failDetail emptyRespMsg))) := by
  have himg' : ('i' :: 'm' :: 'a' :: 'g' :: 'e' :: '/' :: ([] : Str)) <+: ct :=
    List.isPrefixOf_iff_prefix.mp himg
  refine ⟨fun e g => ?_, fun d g e hg => ?_, fun d g hg => ?_, fun d g t hg hstrip => ?_⟩
  · simp [analyse_food, himg']
  · simp [analyse_food, himg', hg]
  · simp [analyse_food, himg', hg]
  · by_cases ht : t = []
    · simp [analyse_food, himg', hg, ht]
    · simp [analyse_food, himg', hg, ht, hstrip]

/-- Witness for C3: a read failure on a `image/png` upload. -/
theorem C3_failure_500_witness :
    analyse_food true (some "image/png".toList)
      (.error "Connection reset".toList) (fun _ _ _ => .ok none) =
      .response (.httpError 500 (failDetail "Connection reset".toList)) :=
  (C3_failure_500 "image/png".toList (by decide)).1 "Connection reset".toList _

/-- C4 (code bug): with the client configured and the declared media
type missing, `file.content_type` is `None` and
`None.startswith("image/")` raises an `AttributeError` outside the
`try` block; the handler does not return the 400 response — the
exception leaves the handler uncaught. -/
theorem C4_missing_content_type_unhandled :
    analyse_food true none (.ok []) (fun _ _ _ => .ok none) =
      .unhandled attrErrMsg ∧
    analyse_food true none (.ok []) (fun _ _ _ => .ok none) ≠
      .response (.httpError 400 detail400) := by
  refine ⟨rfl, ?_⟩
  intro h
  simp [analyse_food] at h

/-- C8: `extract_json_from_text` is exactly the Normalizer the
specification describes — remove the fence markers, trim surrounding
whitespace, strictly parse, and yield null exactly when that strict
parse fails (never the raw text, never a partial value). -/
theorem C8_normalizer_refines_spec (t : Str) :
    extract_json_from_text t = normalizerSpec t := by
  unfold extract_json_from_text extractBody normalizerSpec jsonParse
  rfl

/-- C9: the normalizer is total: on every input the body either
produces a value, which is returned, or raises, and the exception is
caught and turned into `none`; nothing escapes. -/
theorem C9_normalizer_total (t : Str) :
    (∃ v, extractBody t = Except.ok v ∧ extract_json_from_text t = some v) ∨
    (∃ e, extractBody t = Except.error e ∧ extract_json_from_text t = none) := by
  cases h : extractBody t with
  | ok v => exact Or.inl ⟨v, rfl, by simp [extract_json_from_text, h]⟩
  | error e => exact Or.inr ⟨e, rfl, by simp [extract_json_from_text, h]⟩

/-- The post-model continuation never produces a 400 response. -/
theorem afterModel_ne_400 (r : Except Str (Option Str)) (det : Str) :
    afterModel r ≠ .response (.httpError 400 det) := by
  cases r with
  | error e => simp [afterModel]
  | ok text =>
    cases text with
    | none => simp [afterModel]
    | some t =>
      by_cases ht : t = []
      · simp [afterModel, ht]
      · by_cases hrt : pyStrip t = []
        · simp [afterModel, ht, hrt]
        · cases hx : extract_json_from_text (pyStrip t) with
          | none => simp [afterModel, ht, hrt, hx]
          | some v => by_cases hv : jvTruthy v <;> simp [afterModel, ht, hrt, hx, hv]

/-- C10: validation looks only at the declared media type: any upload
declaring `image/…` is accepted (no 400, whatever the bytes), and the
handler behaves as the post-model continuation applied to the model
called with the fixed prompt, the raw bytes and the declared media type
unmodified. -/
theorem C10_forwarding (ct : Str) (d : List Nat)
    (g : Str → List Nat → Str → Except Str (Option Str))
    (himg : ("image/".toList).isPrefixOf ct = true) :
    analyse_food true (some ct) (.ok d) g = afterModel (g promptText d ct) ∧
    ∀ det, analyse_food true (some ct) (.ok d) g ≠
      .response (.httpError 400 det) := by
  have himg' : ('i' :: 'm' :: 'a' :: 'g' :: 'e' :: '/' :: ([] : Str)) <+: ct :=
    List.isPrefixOf_iff_prefix.mp himg
  have heq : analyse_food true (some ct) (.ok d) g = afterModel (g promptText d ct) := by
    cases hg : g promptText d ct with
    | error e => simp [analyse_food, afterModel, himg', hg]
    | ok text => simp [analyse_food, afterModel, himg', hg]
  exact ⟨heq, fun det => heq ▸ afterModel_ne_400 (g promptText d ct) det⟩

/-- Witness for C10 at the media type `image/svg+xml` with a payload
that is not an image at all. -/
theorem C10_forwarding_witness :
    analyse_food true (some "image/svg+xml".toList) (.ok [37, 80, 68, 70])
      (fun _ _ _ => .ok (some "\x7b\x7d".toList)) =
      afterModel ((fun (_ : Str) (_ : List Nat) (_ : Str) =>
        Except.ok (some "\x7b\x7d".toList)) promptText [37, 80, 68, 70]
          "image/svg+xml".toList) :=
  (C10_forwarding "image/svg+xml".toList [37, 80, 68, 70] _ (by decide)).1

/-- C5 counterexample: when the model returns the well-formed JSON
`\x7b\x7d`, the Normalizer succeeds (it returns the empty object, not
null), yet the handler substitutes the canonical default report,
because the code tests `if not parsed_data` — Python falsiness — rather
than `is None`. -/
theorem C5_counterexample :
    extract_json_from_text "\x7b\x7d".toList = some (JValue.obj []) ∧
    analyse_food true (some "image/png".toList) (.ok [1, 2, 3])
      (fun _ _ _ => .ok (some "\x7b\x7d".toList)) =
      .response (.success geminiSource defaultReport) ∧
    defaultReport ≠ JValue.obj [] := by
  refine ⟨rfl, rfl, ?_⟩
  intro h
  simp [defaultReport] at h

/-- C5 as amended: on a successful model call with non-empty stripped
text, the envelope is `success/Gemini` and the report is the Normalizer's
parsed object verbatim when that object is truthy, and the canonical
default exactly when the Normalizer returns null or a falsy value
(empty object, empty array, empty string, `false`, JSON null, or a
number whose float value is `0.0` — including underflowing literals
such as `1e-999`). -/
theorem C5_report_substitution (ct : Str) (d : List Nat)
    (g : Str → List Nat → Str → Except Str (Option Str)) (t : Str)
    (himg : ("image/".toList).isPrefixOf ct = true)
    (hg : g promptText d ct = .ok (some t))
    (hne : pyStrip t ≠ []) :
    analyse_food true (some ct) (.ok d) g =
      .response (.success geminiSource
        (match extract_json_from_text (pyStrip t) with
         | some v => if jvTruthy v then v else defaultReport
         | none => defaultReport)) := by
  have himg' : ('i' :: 'm' :: 'a' :: 'g' :: 'e' :: '/' :: ([] : Str)) <+: ct :=
    List.isPrefixOf_iff_prefix.mp himg
  have ht : t ≠ [] := by
    intro h
    apply hne
    rw [h]
    rfl
  cases hx : extract_json_from_text (pyStrip t) with
  | none => simp [analyse_food, himg', hg, ht, hne, hx]
  | some v => by_cases hv : jvTruthy v <;> simp [analyse_food, himg', hg, ht, hne, hx, hv]

/-- A well-formed model reply with all ten fields. -/
def appleJson : Str :=
  "\x7b\"food_name\":\"Apple\",\"calories\":\"95 kcal\",\"protein\":\"0.5g\",\"carbs\":\"25g\",\"fats\":\"0.3g\",\"fiber\":\"4g\",\"pregnancy_safe\":true,\"period_friendly\":true,\"recommendations\":\"Good snack.\",\"suggested_foods\":[\"banana\",\"pear\"]\x7d".toList

/-- Witness for the amended C5 at a concrete full reply. -/
theorem C5_report_substitution_witness :
    analyse_food true (some "image/png".toList) (.ok [0])
      (fun _ _ _ => .ok (some appleJson)) =
      .response (.success geminiSource
        (match extract_json_from_text (pyStrip appleJson) with
         | some v => if jvTruthy v then v else defaultReport
         | none => defaultReport)) :=
  C5_report_substitution "image/png".toList [0] _ appleJson (by decide) rfl (by decide)

/-! ## Interaction of the fence removal with wrapping -/

/-- The last element of a list is the last element of any non-empty
suffix. -/
theorem getLast?_of_sfx {a b : Str} (h : a <:+ b) (ha : a ≠ []) :
    b.getLast? = a.getLast? := by
  obtain ⟨pre, rfl⟩ := h
  exact List.getLast?_append_of_ne_nil pre ha

/-- Dropping the head of a non-empty tail keeps the last element. -/
theorem getLast?_cons_of_ne_nil (a : Char) {l : Str} (h : l ≠ []) :
    (a :: l).getLast? = l.getLast? :=
  List.getLast?_append_of_ne_nil [a] h

/-- `str.replace` is the identity when the pattern occurs nowhere. -/
theorem replaceAll_of_not_infix {p : Str} :
    ∀ (n : Nat) (s : Str), s.length ≤ n → ¬(p <:+: s) → replaceAll p s = s := by
  intro n
  induction n with
  | zero =>
    intro s hs _
    rw [List.length_eq_zero.mp (Nat.le_zero.mp hs)]
    exact replaceAll_nil p
  | succ n ih =>
    intro s hs hocc
    cases s with
    | nil => exact replaceAll_nil p
    | cons c r =>
      have hp : ¬(p <+: (c :: r)) := fun h => hocc h.isInfix
      rw [replaceAll_neg_cons c r hp]
      have hocc' : ¬(p <:+: r) := by
        intro h
        obtain ⟨u, t, rfl⟩ := h
        exact hocc ⟨c :: u, t, by simp⟩
      rw [ih r (by simp only [List.length_cons] at hs; omega) hocc']

/-- Removing a leading occurrence of the pattern. -/
theorem replaceAll_cancel_head {p : Str} (hne : p ≠ []) (s : Str) :
    replaceAll p (p ++ s) = replaceAll p s := by
  rw [replaceAll_pos hne (p.prefix_append s), List.drop_left]

/-- Removing `\x60\x60\x60json` commutes with appending a closing
`\x60\x60\x60`: no occurrence of the long marker can reach into the
appended backticks, because the marker ends in `n`. -/
theorem replaceAll_fj_append_fence :
    ∀ (n : Nat) (X : Str), X.length ≤ n →
      replaceAll fenceJson (X ++ fence) = replaceAll fenceJson X ++ fence := by
  intro n
  induction n with
  | zero =>
    intro X hX
    rw [List.length_eq_zero.mp (Nat.le_zero.mp hX)]
    decide
  | succ n ih =>
    intro X hX
    cases X with
    | nil => decide
    | cons c X' =>
      by_cases hp : fenceJson <+: ((c :: X') ++ fence)
      · by_cases hlen : fenceJson.length ≤ (c :: X').length
        · have hp' : fenceJson <+: (c :: X') := by
            have h1 := List.prefix_iff_eq_take.mp hp
            rw [List.take_append_of_le_length hlen] at h1
            exact List.prefix_iff_eq_take.mpr h1
          rw [replaceAll_pos (by decide) hp,
            List.drop_append_of_le_length hlen,
            replaceAll_pos (by decide) hp']
          apply ih
          simp only [List.length_cons, List.length_drop] at hX ⊢
          have : 0 < fenceJson.length := by decide
          omega
        · exfalso
          have hfl : fenceJson.length = 7 := by decide
          have h4 : 4 ≤ (c :: X').length := by
            have := hp.length_le
            simp only [List.length_append] at this
            have hfe : fence.length = 3 := by decide
            omega
          have h6 : (6 : Nat) - (c :: X').length < 3 := by omega
          have htake := List.prefix_iff_eq_take.mp hp
          have hL : fenceJson[6]? = ((c :: X') ++ fence)[6]? := by
            rw [htake, List.getElem?_take, if_pos (by omega)]
          have hR : ((c :: X') ++ fence)[6]? = fence[6 - (c :: X').length]? := by
            rw [List.getElem?_append_right (by omega)]
          have hbt : ∀ k, k < 3 → fence[k]? = some btick := by decide
          have : some 'n' = some btick := by
            calc some 'n' = fenceJson[6]? := by decide
              _ = fence[6 - (c :: X').length]? := hL.trans hR
              _ = some btick := hbt _ h6
          exact absurd (Option.some.inj this) (by decide)
      · have hp' : ¬(fenceJson <+: (c :: X')) :=
          fun h => hp (h.trans ((c :: X').prefix_append fence))
        have hstep : (c :: X') ++ fence = c :: (X' ++ fence) := rfl
        rw [hstep, replaceAll_neg_cons c (X' ++ fence) hp,
          replaceAll_neg_cons c X' hp',
          ih X' (by simp only [List.length_cons] at hX; omega)]
        rfl

/-- Removing `\x60\x60\x60` absorbs an appended `\x60\x60\x60` when the
base string does not end with a backtick (so no occurrence straddles
the boundary). -/
theorem replaceAll_fence_append_fence :
    ∀ (n : Nat) (X : Str), X.length ≤ n →
      (∀ c, X.getLast? = some c → c ≠ btick) →
      replaceAll fence (X ++ fence) = replaceAll fence X := by
  intro n
  induction n with
  | zero =>
    intro X hX _
    rw [List.length_eq_zero.mp (Nat.le_zero.mp hX)]
    decide
  | succ n ih =>
    intro X hX hlast
    cases X with
    | nil => decide
    | cons c X' =>
      by_cases hp : fence <+: ((c :: X') ++ fence)
      · by_cases hlen : fence.length ≤ (c :: X').length
        · have hp' : fence <+: (c :: X') := by
            have h1 := List.prefix_iff_eq_take.mp hp
            rw [List.take_append_of_le_length hlen] at h1
            exact List.prefix_iff_eq_take.mpr h1
          rw [replaceAll_pos (by decide) hp,
            List.drop_append_of_le_length hlen,
            replaceAll_pos (by decide) hp']
          apply ih
          · simp only [List.length_cons, List.length_drop] at hX ⊢
            have : 0 < fence.length := by decide
            omega
          · intro c' hc'
            by_cases hd : (c :: X').drop fence.length = []
            · rw [hd] at hc'
              exact absurd hc' (by simp)
            · refine hlast c' ?_
              rw [getLast?_of_sfx (List.drop_suffix _ _) hd]
              exact hc'
        · exfalso
          have hfe : fence.length = 3 := by decide
          have hL1 : 1 ≤ (c :: X').length := by simp
          have hL2 : (c :: X').length ≤ 2 := by omega
          have htake := List.prefix_iff_eq_take.mp hp
          set L := (c :: X').length with hLdef
          have hidx : L - 1 < L := by omega
          have hGL : (c :: X').getLast? = (c :: X')[L - 1]? := by
            rw [List.getLast?_eq_getElem?]
          have hA : (c :: X')[L - 1]? = ((c :: X') ++ fence)[L - 1]? := by
            rw [List.getElem?_append, if_pos hidx]
          have hB : fence[L - 1]? = ((c :: X') ++ fence)[L - 1]? := by
            conv_lhs => rw [htake]
            rw [List.getElem?_take, if_pos (by omega)]
          have hbt : ∀ k, k < 3 → fence[k]? = some btick := by decide
          have hlast' : (c :: X').getLast? = some btick := by
            rw [hGL, hA, ← hB]
            exact hbt _ (by omega)
          exact hlast btick hlast' rfl
      · have hp' : ¬(fence <+: (c :: X')) :=
          fun h => hp (h.trans ((c :: X').prefix_append fence))
        have hstep : (c :: X') ++ fence = c :: (X' ++ fence) := rfl
        rw [hstep, replaceAll_neg_cons c (X' ++ fence) hp,
          replaceAll_neg_cons c X' hp']
        congr 1
        apply ih X' (by simp only [List.length_cons] at hX; omega)
        intro c' hc'
        by_cases hX' : X' = []
        · rw [hX'] at hc'
          exact absurd hc' (by simp)
        · exact hlast c' ((getLast?_cons_of_ne_nil c hX').trans hc')

/-- Removing `\x60\x60\x60json` keeps the last character when it is not
`n` (the marker's last character), in particular when it is not a
backtick either. -/
theorem replaceAll_fj_getLast :
    ∀ (n : Nat) (X : Str), X.length ≤ n →
      ∀ c, X.getLast? = some c → c ≠ 'n' →
        (replaceAll fenceJson X).getLast? = some c := by
  intro n
  induction n with
  | zero =>
    intro X hX c hc _
    rw [List.length_eq_zero.mp (Nat.le_zero.mp hX)] at hc
    exact absurd hc (by simp)
  | succ n ih =>
    intro X hX c hc hn
    cases X with
    | nil => exact absurd hc (by simp)
    | cons a X' =>
      by_cases hp : fenceJson <+: (a :: X')
      · rw [replaceAll_pos (by decide) hp]
        by_cases hd : (a :: X').drop fenceJson.length = []
        · exfalso
          have hfl : fenceJson.length = 7 := by decide
          have hle : (a :: X').length ≤ 7 := by
            have := List.drop_eq_nil_iff.mp hd
            omega
          have hge : 7 ≤ (a :: X').length := by
            have := hp.length_le
            omega
          have heq : a :: X' = fenceJson := by
            have h1 := List.prefix_iff_eq_take.mp hp
            rw [hfl, ← (by omega : (a :: X').length = 7), List.take_length] at h1
            exact h1.symm
          rw [heq] at hc
          have : c = 'n' := by
            have h2 : fenceJson.getLast? = some 'n' := by decide
            exact Option.some.inj (hc.symm.trans h2)
          exact hn this
        · apply ih _ ?_ c ?_ hn
          · simp only [List.length_cons, List.length_drop] at hX ⊢
            have : 0 < fenceJson.length := by decide
            omega
          · rw [← getLast?_of_sfx (List.drop_suffix _ _) hd]
            exact hc
      · rw [replaceAll_neg_cons a X' hp]
        by_cases hX' : X' = []
        · subst hX'
          have : c = a := by
            have h2 : ([a] : Str).getLast? = some a := rfl
            exact Option.some.inj (hc.symm.trans h2)
          subst this
          rw [replaceAll_nil]
          rfl
        · have h1 : X'.getLast? = some c := (getLast?_cons_of_ne_nil a hX').symm.trans hc
          have h2 := ih X' (by simp only [List.length_cons] at hX; omega) c h1 hn
          have h3 : replaceAll fenceJson X' ≠ [] := by
            intro hz
            rw [hz] at h2
            exact absurd h2 (by simp)
          rw [getLast?_cons_of_ne_nil a h3]
          exact h2

/-! ## What the parser consumes: rest is always a suffix -/

/-- A suffix extended by one head element. -/
theorem sfx_cons {a : Str} (c : Char) {l : Str} (h : a <:+ l) : a <:+ c :: l :=
  h.trans (List.suffix_cons c l)

/-- `skipWs` yields a suffix. -/
theorem skipWs_sfx (s : Str) : skipWs s <:+ s := List.dropWhile_suffix isJsonWs

theorem parseHex4_sfx {s r : Str} {n : Nat} (h : parseHex4 s = some (n, r)) :
    r <:+ s := by
  unfold parseHex4 at h
  split at h
  · rename_i c1 c2 c3 c4 r'
    split at h
    · simp only [Option.some.injEq, Prod.mk.injEq] at h
      obtain ⟨-, rfl⟩ := h
      exact sfx_cons c1 (sfx_cons c2 (sfx_cons c3 (sfx_cons c4 List.suffix_rfl)))
    · exact absurd h (by simp)
  · exact absurd h (by simp)

theorem strBody_sfx :
    ∀ (f : Nat) (s cs r : Str), strBody f s = some (cs, r) → r <:+ s := by
  intro f
  induction f with
  | zero => intro s cs r h; simp [strBody] at h
  | succ f ih =>
    intro s cs r h
    simp only [strBody] at h
    split at h
    · exact absurd h (by simp)
    · rename_i r0
      simp only [Option.some.injEq, Prod.mk.injEq] at h
      obtain ⟨-, rfl⟩ := h
      exact sfx_cons _ List.suffix_rfl
    · rename_i rest
      split at h
      · exact absurd h (by simp)
      · rename_i r2
        split at h
        · rename_i n r3 hhex
          split at h
          · rename_i cs0 r4 hrec
            simp only [Option.some.injEq, Prod.mk.injEq] at h
            obtain ⟨-, rfl⟩ := h
            exact sfx_cons _ (sfx_cons _ ((ih _ _ _ hrec).trans (parseHex4_sfx hhex)))
          · exact absurd h (by simp)
        · exact absurd h (by simp)
      · rename_i c r2 hne
        split at h
        · rename_i e hesc
          split at h
          · rename_i cs0 r3 hrec
            simp only [Option.some.injEq, Prod.mk.injEq] at h
            obtain ⟨-, rfl⟩ := h
            exact sfx_cons _ (sfx_cons _ (ih _ _ _ hrec))
          · exact absurd h (by simp)
        · exact absurd h (by simp)
    · rename_i c r0 h1 h2
      split at h
      · exact absurd h (by simp)
      · split at h
        · rename_i cs0 r2 hrec
          simp only [Option.some.injEq, Prod.mk.injEq] at h
          obtain ⟨-, rfl⟩ := h
          exact sfx_cons _ (ih _ _ _ hrec)
        · exact absurd h (by simp)

theorem parseStr_sfx {s cs r : Str} (h : parseStr s = some (cs, r)) : r <:+ s :=
  strBody_sfx _ s cs r h

theorem parseFrac_sfx (s : Str) : (parseFrac s).2 <:+ s := by
  unfold parseFrac
  split
  · rename_i r
    dsimp only
    split
    · exact List.suffix_rfl
    · exact sfx_cons _ (List.dropWhile_suffix _)
  · exact List.suffix_rfl

theorem expSign_sfx (r : Str) : (expSign r).2 <:+ r := by
  unfold expSign
  split
  · exact sfx_cons _ List.suffix_rfl
  · exact sfx_cons _ List.suffix_rfl
  · exact List.suffix_rfl

theorem parseExpPart_sfx (s : Str) : (parseExpPart s).2 <:+ s := by
  unfold parseExpPart
  split
  · rename_i c r
    split
    · dsimp only
      split
      · exact List.suffix_rfl
      · exact sfx_cons _ ((List.dropWhile_suffix _).trans (expSign_sfx r))
    · exact List.suffix_rfl
  · exact List.suffix_rfl

theorem negSign_sfx (s : Str) : (negSign s).2 <:+ s := by
  unfold negSign
  split
  · exact sfx_cons _ List.suffix_rfl
  · exact List.suffix_rfl

theorem parseNumber_sfx {s : Str} {v : JValue} {r : Str}
    (h : parseNumber s = some (v, r)) : r <:+ s := by
  unfold parseNumber at h
  dsimp only at h
  split at h
  · rename_i r0 heq
    simp only [Option.some.injEq, Prod.mk.injEq] at h
    obtain ⟨-, rfl⟩ := h
    exact ((parseExpPart_sfx _).trans (parseFrac_sfx _)).trans
      ((sfx_cons '0' List.suffix_rfl).trans (heq ▸ negSign_sfx s))
  · rename_i c r0 heq
    split at h
    · simp only [Option.some.injEq, Prod.mk.injEq] at h
      obtain ⟨-, rfl⟩ := h
      exact ((parseExpPart_sfx _).trans (parseFrac_sfx _)).trans
        ((List.dropWhile_suffix _).trans (heq ▸ negSign_sfx s))
    · exact absurd h (by simp)
  · exact absurd h (by simp)

theorem parseLit_sfx {lit : Str} {v w : JValue} {s r : Str}
    (h : parseLit lit v s = some (w, r)) : r <:+ s := by
  unfold parseLit at h
  split at h
  · simp only [Option.some.injEq, Prod.mk.injEq] at h
    obtain ⟨-, rfl⟩ := h
    exact List.drop_suffix _ _
  · exact absurd h (by simp)

theorem parseSfx : ∀ f : Nat,
    (∀ s v r, parseValue f s = some (v, r) → r <:+ s) ∧
    (∀ s xs r, parseArrBody f s = some (xs, r) → r <:+ s) ∧
    (∀ s xs r, parseArrItems f s = some (xs, r) → r <:+ s) ∧
    (∀ s m r, parseObjBody f s = some (m, r) → r <:+ s) ∧
    (∀ s m r, parseObjItems f s = some (m, r) → r <:+ s) := by
  intro f
  induction f with
  | zero =>
    refine ⟨?_, ?_, ?_, ?_, ?_⟩ <;> intro s a r h <;>
      simp [parseValue, parseArrBody, parseArrItems, parseObjBody, parseObjItems] at h
  | succ f ih =>
    obtain ⟨ihV, ihAB, ihAI, ihOB, ihOI⟩ := ih
    refine ⟨?_, ?_, ?_, ?_, ?_⟩
    · intro s v r h
      simp only [parseValue] at h
      split at h
      · exact absurd h (by simp)
      · rename_i r0
        split at h
        · rename_i m rest hob
          simp only [Option.some.injEq, Prod.mk.injEq] at h
          obtain ⟨-, rfl⟩ := h
          exact sfx_cons _ ((ihOB _ _ _ hob).trans (skipWs_sfx r0))
        · exact absurd h (by simp)
      · rename_i r0
        split at h
        · rename_i xs rest hab
          simp only [Option.some.injEq, Prod.mk.injEq] at h
          obtain ⟨-, rfl⟩ := h
          exact sfx_cons _ ((ihAB _ _ _ hab).trans (skipWs_sfx r0))
        · exact absurd h (by simp)
      · rename_i r0
        split at h
        · rename_i cs rest hps
          simp only [Option.some.injEq, Prod.mk.injEq] at h
          obtain ⟨-, rfl⟩ := h
          exact sfx_cons _ (parseStr_sfx hps)
        · exact absurd h (by simp)
      · rename_i c r0 h1 h2 h3
        split at h
        · exact parseLit_sfx h
        · split at h
          · exact parseLit_sfx h
          · split at h
            · exact parseLit_sfx h
            · split at h
              · exact parseLit_sfx h
              · split at h
                · exact parseLit_sfx h
                · split at h
                  · split at h
                    · exact parseLit_sfx h
                    · exact parseNumber_sfx h
                  · split at h
                    · exact parseNumber_sfx h
                    · exact absurd h (by simp)
    · intro s xs r h
      simp only [parseArrBody] at h
      split at h
      · rename_i r0
        simp only [Option.some.injEq, Prod.mk.injEq] at h
        obtain ⟨-, rfl⟩ := h
        exact sfx_cons _ List.suffix_rfl
      · exact ihAI _ _ _ h
    · intro s xs r h
      simp only [parseArrItems] at h
      split at h
      · exact absurd h (by simp)
      · rename_i v r0 hv
        split at h
        · rename_i r2 hsw
          simp only [Option.some.injEq, Prod.mk.injEq] at h
          obtain ⟨-, rfl⟩ := h
          have h1 : r2 <:+ skipWs r0 := hsw.symm ▸ List.suffix_cons ']' r2
          exact (h1.trans (skipWs_sfx r0)).trans (ihV _ _ _ hv)
        · rename_i r2 hsw
          split at h
          · rename_i vs r3 hrec
            simp only [Option.some.injEq, Prod.mk.injEq] at h
            obtain ⟨-, rfl⟩ := h
            have t1 : r3 <:+ r2 := (ihAI _ _ _ hrec).trans (skipWs_sfx r2)
            have t2 : r3 <:+ skipWs r0 := hsw.symm ▸ sfx_cons ',' t1
            exact (t2.trans (skipWs_sfx r0)).trans (ihV _ _ _ hv)
          · exact absurd h (by simp)
        · exact absurd h (by simp)
    · intro s m r h
      simp only [parseObjBody] at h
      split at h
      · rename_i r0
        simp only [Option.some.injEq, Prod.mk.injEq] at h
        obtain ⟨-, rfl⟩ := h
        exact sfx_cons _ List.suffix_rfl
      · exact ihOI _ _ _ h
    · intro s m r h
      simp only [parseObjItems] at h
      split at h
      · rename_i r0
        split at h
        · exact absurd h (by simp)
        · rename_i k r1 hk
          split at h
          · rename_i r2 hsw1
            split at h
            · exact absurd h (by simp)
            · rename_i v r3 hv
              split at h
              · rename_i r4 hsw2
                simp only [Option.some.injEq, Prod.mk.injEq] at h
                obtain ⟨-, rfl⟩ := h
                have t1 : r4 <:+ skipWs r3 := hsw2.symm ▸ List.suffix_cons '}' r4
                have t2 : r4 <:+ skipWs r2 :=
                  ((t1.trans (skipWs_sfx r3)).trans (ihV _ _ _ hv))
                have t3 : r4 <:+ skipWs r1 :=
                  hsw1.symm ▸ sfx_cons ':' (t2.trans (skipWs_sfx r2))
                exact sfx_cons '"' (((t3.trans (skipWs_sfx r1)).trans (parseStr_sfx hk)))
              · rename_i r4 hsw2
                split at h
                · rename_i ms r5 hrec
                  simp only [Option.some.injEq, Prod.mk.injEq] at h
                  obtain ⟨-, rfl⟩ := h
                  have t0 : r5 <:+ r4 := (ihOI _ _ _ hrec).trans (skipWs_sfx r4)
                  have t1 : r5 <:+ skipWs r3 := hsw2.symm ▸ sfx_cons ',' t0
                  have t2 : r5 <:+ skipWs r2 :=
                    ((t1.trans (skipWs_sfx r3)).trans (ihV _ _ _ hv))
                  have t3 : r5 <:+ skipWs r1 :=
                    hsw1.symm ▸ sfx_cons ':' (t2.trans (skipWs_sfx r2))
                  exact sfx_cons '"' (((t3.trans (skipWs_sfx r1)).trans (parseStr_sfx hk)))
                · exact absurd h (by simp)
              · exact absurd h (by simp)
          · exact absurd h (by simp)
      · exact absurd h (by simp)

/-- A successful object-member parse stops right after a closing brace:
the brace followed by the rest is a suffix of the input. -/
theorem parseObjItems_brace :
    ∀ f : Nat, ∀ s m r, parseObjItems f s = some (m, r) → ('}' :: r) <:+ s := by
  intro f
  induction f with
  | zero => intro s m r h; simp [parseObjItems] at h
  | succ f ih =>
    intro s m r h
    simp only [parseObjItems] at h
    split at h
    · rename_i r0
      split at h
      · exact absurd h (by simp)
      · rename_i k r1 hk
        split at h
        · rename_i r2 hsw1
          split at h
          · exact absurd h (by simp)
          · rename_i v r3 hv
            split at h
            · rename_i r4 hsw2
              simp only [Option.some.injEq, Prod.mk.injEq] at h
              obtain ⟨-, rfl⟩ := h
              have t1 : ('}' :: r4) <:+ skipWs r3 := by
                rw [hsw2]
              have t2 : ('}' :: r4) <:+ skipWs r2 :=
                (t1.trans (skipWs_sfx r3)).trans ((parseSfx f).1 _ _ _ hv)
              have t3 : ('}' :: r4) <:+ skipWs r1 := by
                rw [hsw1]
                exact sfx_cons ':' (t2.trans (skipWs_sfx r2))
              exact sfx_cons '"' ((t3.trans (skipWs_sfx r1)).trans (parseStr_sfx hk))
            · rename_i r4 hsw2
              split at h
              · rename_i ms r5 hrec
                simp only [Option.some.injEq, Prod.mk.injEq] at h
                obtain ⟨-, rfl⟩ := h
                have t0 : ('}' :: r5) <:+ r4 := (ih _ _ _ hrec).trans (skipWs_sfx r4)
                have t1 : ('}' :: r5) <:+ skipWs r3 := by
                  rw [hsw2]
                  exact sfx_cons ',' t0
                have t2 : ('}' :: r5) <:+ skipWs r2 :=
                  (t1.trans (skipWs_sfx r3)).trans ((parseSfx f).1 _ _ _ hv)
                have t3 : ('}' :: r5) <:+ skipWs r1 := by
                  rw [hsw1]
                  exact sfx_cons ':' (t2.trans (skipWs_sfx r2))
                exact sfx_cons '"' ((t3.trans (skipWs_sfx r1)).trans (parseStr_sfx hk))
              · exact absurd h (by simp)
            · exact absurd h (by simp)
        · exact absurd h (by simp)
    · exact absurd h (by simp)

/-- Same property for a full object body. -/
theorem parseObjBody_brace (f : Nat) :
    ∀ s m r, parseObjBody f s = some (m, r) → ('}' :: r) <:+ s := by
  cases f with
  | zero => intro s m r h; simp [parseObjBody] at h
  | succ f =>
    intro s m r h
    simp only [parseObjBody] at h
    split at h
    · rename_i r0
      simp only [Option.some.injEq, Prod.mk.injEq] at h
      obtain ⟨-, rfl⟩ := h
      exact List.suffix_rfl
    · exact parseObjItems_brace f _ _ _ h

/-- The element reported by `getLast?` is a member. -/
theorem mem_of_getLast?_eq {l : Str} {c : Char} (h : l.getLast? = some c) : c ∈ l := by
  obtain ⟨hne, heq⟩ := List.mem_getLast?_eq_getLast (show c ∈ l.getLast? from h)
  exact heq ▸ List.getLast_mem hne

/-- A literal parse returns the literal's value. -/
theorem parseLit_val {lit : Str} {v w : JValue} {s r : Str}
    (h : parseLit lit v s = some (w, r)) : w = v := by
  unfold parseLit at h
  split at h
  · simp only [Option.some.injEq, Prod.mk.injEq] at h
    exact h.1.symm
  · exact absurd h (by simp)

/-- A number parse returns a number value. -/
theorem parseNumber_num {s : Str} {v : JValue} {r : Str}
    (h : parseNumber s = some (v, r)) : ∃ n, v = JValue.num n := by
  unfold parseNumber at h
  dsimp only at h
  split at h
  · simp only [Option.some.injEq, Prod.mk.injEq] at h
    exact ⟨_, h.1.symm⟩
  · split at h
    · simp only [Option.some.injEq, Prod.mk.injEq] at h
      exact ⟨_, h.1.symm⟩
    · exact absurd h (by simp)
  · exact absurd h (by simp)

/-- A value parse that yields an object consumed text ending in `\x7d`. -/
theorem parseValue_obj_brace (f : Nat) :
    ∀ s m r, parseValue f s = some (JValue.obj m, r) → ('}' :: r) <:+ s := by
  cases f with
  | zero => intro s m r h; simp [parseValue] at h
  | succ f =>
    intro s m r h
    simp only [parseValue] at h
    split at h
    · exact absurd h (by simp)
    · rename_i r0
      split at h
      · rename_i m0 rest hob
        simp only [Option.some.injEq, Prod.mk.injEq, JValue.obj.injEq] at h
        obtain ⟨-, rfl⟩ := h
        exact sfx_cons '{' ((parseObjBody_brace f _ _ _ hob).trans (skipWs_sfx r0))
      · exact absurd h (by simp)
    · rename_i r0
      split at h
      · simp at h
      · exact absurd h (by simp)
    · rename_i r0
      split at h
      · simp at h
      · exact absurd h (by simp)
    · rename_i c r0 h1 h2 h3
      split at h
      · have := parseLit_val h
        simp at this
      · split at h
        · have := parseLit_val h
          simp at this
        · split at h
          · have := parseLit_val h
            simp at this
          · split at h
            · have := parseLit_val h
              simp at this
            · split at h
              · have := parseLit_val h
                simp at this
              · split at h
                · split at h
                  · have := parseLit_val h
                    simp at this
                  · obtain ⟨n, hn⟩ := parseNumber_num h
                    simp at hn
                · split at h
                  · obtain ⟨n, hn⟩ := parseNumber_num h
                    simp at hn
                  · exact absurd h (by simp)

/-- A string accepted by `json.loads` as an object neither is empty nor
ends in a backtick or in `n`: it ends in `\x7d` or in JSON whitespace. -/
theorem jsonParse_obj_last {Y : Str} {m : List (Str × JValue)}
    (h : jsonParse Y = some (JValue.obj m)) :
    Y ≠ [] ∧ ∀ c, Y.getLast? = some c → c ≠ btick ∧ c ≠ 'n' := by
  unfold jsonParse at h
  split at h
  · rename_i v hE
    have hv : v = JValue.obj m := Option.some.inj h
    subst hv
    unfold jsonParseE at hE
    split at hE
    · exact absurd hE (by simp)
    · rename_i v0 rest hv
      split at hE
      · rename_i hws
        have hv0 : v0 = JValue.obj m := by
          have := hE
          simp only [Except.ok.injEq] at this
          exact this
        subst hv0
        have hbr : ('}' :: rest) <:+ skipWs Y := parseValue_obj_brace _ _ _ _ hv
        have hbrY : ('}' :: rest) <:+ Y := hbr.trans (skipWs_sfx Y)
        obtain ⟨pre, hpre⟩ := hbrY
        constructor
        · intro hnil
          rw [hnil] at hpre
          exact absurd hpre (by simp)
        · intro c hc
          have hY : Y.getLast? = ('}' :: rest).getLast? := by
            rw [← hpre]
            exact List.getLast?_append_of_ne_nil pre (by simp)
          cases rest with
          | nil =>
            have h2 : ('}' :: ([] : Str)).getLast? = some '}' := rfl
            have : c = '}' := Option.some.inj ((hc.symm.trans hY).trans h2)
            subst this
            exact ⟨by decide, by decide⟩
          | cons x xs =>
            have h3 : ('}' :: x :: xs).getLast? = (x :: xs).getLast? :=
              getLast?_cons_of_ne_nil '}' (by simp)
            have hc2 : (x :: xs).getLast? = some c := (h3.symm.trans hY.symm).trans hc
            have hmem : c ∈ (x :: xs) := mem_of_getLast?_eq hc2
            have hcws : isJsonWs c = true :=
              (List.dropWhile_eq_nil_iff.mp hws) c hmem
            constructor
            · intro hEq
              rw [hEq] at hcws
              exact absurd hcws (by decide)
            · intro hEq
              rw [hEq] at hcws
              exact absurd hcws (by decide)
      · exact absurd hE (by simp)
  · exact absurd h (by simp)

/-- C7: wrapping a valid JSON object text in ` ```json … ``` ` fences
does not change what the normalizer extracts: the opening marker is
removed as a leading occurrence, the closing backticks are removed by
the second `replace`, and neither removal can interact with the JSON
text across the boundaries, because a parsed object text ends in `\x7d`
or whitespace. -/
theorem C7_wrap_invariance (X : Str) (m : List (Str × JValue))
    (hX : jsonParse X = some (JValue.obj m)) :
    extract_json_from_text (wrapFence X) = extract_json_from_text X := by
  obtain ⟨hne, hsafe⟩ := jsonParse_obj_last hX
  obtain ⟨c0, hc0⟩ : ∃ c0, X.getLast? = some c0 := by
    cases X with
    | nil => exact absurd rfl hne
    | cons a l => exact ⟨_, List.getLast?_eq_getLast_of_ne_nil (by simp)⟩
  obtain ⟨hcb, hcn⟩ := hsafe c0 hc0
  have hstep1 : replaceAll fenceJson (wrapFence X) = replaceAll fenceJson X ++ fence := by
    unfold wrapFence
    rw [List.append_assoc, replaceAll_cancel_head (by decide)]
    exact replaceAll_fj_append_fence X.length X le_rfl
  have hlast : (replaceAll fenceJson X).getLast? = some c0 :=
    replaceAll_fj_getLast X.length X le_rfl c0 hc0 hcn
  have hstep2 : replaceAll fence (replaceAll fenceJson X ++ fence) =
      replaceAll fence (replaceAll fenceJson X) := by
    apply replaceAll_fence_append_fence (replaceAll fenceJson X).length _ le_rfl
    intro c hc
    have hcc : c = c0 := Option.some.inj (hc.symm.trans hlast)
    rw [hcc]
    exact hcb
  have hclean : stripFences (wrapFence X) = stripFences X := by
    unfold stripFences
    rw [hstep1, hstep2]
  unfold extract_json_from_text extractBody
  rw [hclean]

/-- Witness for C7 at a small JSON object. -/
theorem C7_wrap_invariance_witness :
    extract_json_from_text (wrapFence "\x7b\"a\":1\x7d".toList) =
      extract_json_from_text "\x7b\"a\":1\x7d".toList :=
  C7_wrap_invariance "\x7b\"a\":1\x7d".toList
    [("a".toList, JValue.num ⟨false, ['1'], [], none⟩)] rfl

/-- Splitting a list at its trailing run of `p`-elements. -/
theorem rdrop_rtake (p : Char → Bool) (l : Str) :
    l.rdropWhile p ++ l.rtakeWhile p = l := by
  rw [List.rdropWhile, List.rtakeWhile, ← List.reverse_append,
    List.takeWhile_append_dropWhile, List.reverse_reverse]

/-- When the stripped text parses as an object, the raw text ends in a
Python-whitespace character or in the object's safe last character —
never in a backtick or `n`. -/
theorem pyStrip_last_safe {X : Str} {m : List (Str × JValue)}
    (hX : jsonParse (pyStrip X) = some (JValue.obj m)) :
    ∀ c, X.getLast? = some c → c ≠ btick ∧ c ≠ 'n' := by
  obtain ⟨hne, hsafe⟩ := jsonParse_obj_last hX
  intro c hc
  have hdecomp :
      X.takeWhile isPyWs ++ (pyStrip X ++ (X.dropWhile isPyWs).rtakeWhile isPyWs) = X := by
    rw [pyStrip, rdrop_rtake isPyWs (X.dropWhile isPyWs)]
    exact List.takeWhile_append_dropWhile _ _
  by_cases hb : (X.dropWhile isPyWs).rtakeWhile isPyWs = []
  · rw [hb, List.append_nil] at hdecomp
    have hY : X.getLast? = (pyStrip X).getLast? := by
      conv_lhs => rw [← hdecomp]
      exact List.getLast?_append_of_ne_nil _ hne
    exact hsafe c (hY.symm.trans hc)
  · have hY : X.getLast? = ((X.dropWhile isPyWs).rtakeWhile isPyWs).getLast? := by
      have e1 : (X.takeWhile isPyWs ++
          (pyStrip X ++ (X.dropWhile isPyWs).rtakeWhile isPyWs)).getLast? =
          (pyStrip X ++ (X.dropWhile isPyWs).rtakeWhile isPyWs).getLast? :=
        List.getLast?_append_of_ne_nil _ (by simp [hb])
      have e2 : (pyStrip X ++ (X.dropWhile isPyWs).rtakeWhile isPyWs).getLast? =
          ((X.dropWhile isPyWs).rtakeWhile isPyWs).getLast? :=
        List.getLast?_append_of_ne_nil _ hb
      conv_lhs => rw [← hdecomp]
      exact e1.trans e2
    have hmem : c ∈ (X.dropWhile isPyWs).rtakeWhile isPyWs :=
      mem_of_getLast?_eq (hY.symm.trans hc)
    have hpws : isPyWs c = true := List.mem_rtakeWhile_imp hmem
    constructor <;> intro hEq <;> rw [hEq] at hpws <;> exact absurd hpws (by decide)

/-- Field access through an optional value. -/
def foodNameOf (o : Option JValue) : Option JValue :=
  o.bind (fun v => getField v "food_name".toList)

/-- A well-formed model reply whose `food_name` value contains a code
fence inside the JSON string. -/
def backtickJson : Str :=
  "\x7b\"food_name\":\"a```b\",\"calories\":\"1\",\"protein\":\"1\",\"carbs\":\"1\",\"fats\":\"1\",\"fiber\":\"1\",\"pregnancy_safe\":true,\"period_friendly\":false,\"recommendations\":\"r\",\"suggested_foods\":[\"x\"]\x7d".toList

set_option maxRecDepth 16384 in
/-- C6 counterexample: `backtickJson` is a well-formed JSON object whose
`food_name` is the five-character string `a```b`, yet the normalizer
returns an object whose `food_name` is `ab`: the `replace` calls delete
the backticks inside the JSON string value before parsing. -/
theorem C6_counterexample :
    foodNameOf (jsonParse backtickJson) = some (JValue.str "a```b".toList) ∧
    foodNameOf (extract_json_from_text backtickJson) = some (JValue.str "ab".toList) ∧
    "a```b".toList ≠ "ab".toList := by
  refine ⟨rfl, rfl, by decide⟩

/-- C6 as amended: for a text whose stripped form parses as a JSON
object and that contains no occurrence of the fence marker ` ``` `, the
normalizer returns exactly the parsed object — every field untouched —
both for the bare text and for the fence-wrapped text. -/
theorem C6_values_preserved (X : Str) (m : List (Str × JValue))
    (hX : jsonParse (pyStrip X) = some (JValue.obj m))
    (hocc : ¬(fence <:+: X)) :
    extract_json_from_text X = some (JValue.obj m) ∧
    extract_json_from_text (wrapFence X) = some (JValue.obj m) := by
  have hoccJ : ¬(fenceJson <:+: X) := by
    intro hj
    exact hocc ((by decide : fence <+: fenceJson).isInfix.trans hj)
  have hid1 : replaceAll fenceJson X = X :=
    replaceAll_of_not_infix X.length X le_rfl hoccJ
  have hid2 : replaceAll fence X = X :=
    replaceAll_of_not_infix X.length X le_rfl hocc
  have h1 : extract_json_from_text X = some (JValue.obj m) := by
    unfold extract_json_from_text extractBody stripFences
    rw [hid1, hid2]
    cases hE : jsonParseE (pyStrip X) with
    | ok v =>
      have hv : v = JValue.obj m := by
        unfold jsonParse at hX
        rw [hE] at hX
        exact Option.some.inj hX
      rw [hv]
    | error e =>
      exfalso
      unfold jsonParse at hX
      rw [hE] at hX
      exact absurd hX (by simp)
  have hsafe := pyStrip_last_safe hX
  have hstep1 : replaceAll fenceJson (wrapFence X) = X ++ fence := by
    unfold wrapFence
    rw [List.append_assoc, replaceAll_cancel_head (by decide),
      replaceAll_fj_append_fence X.length X le_rfl, hid1]
  have hstep2 : replaceAll fence (X ++ fence) = X := by
    rw [replaceAll_fence_append_fence X.length X le_rfl (fun c hc => (hsafe c hc).1), hid2]
  have h2 : extract_json_from_text (wrapFence X) = extract_json_from_text X := by
    unfold extract_json_from_text extractBody stripFences
    rw [hstep1, hstep2, hid1, hid2]
  exact ⟨h1, h2.trans h1⟩

/-- Witness for the amended C6, with surrounding whitespace. -/
theorem C6_values_preserved_witness :
    extract_json_from_text " \x7b\"a\":true\x7d ".toList =
      some (JValue.obj [("a".toList, JValue.bool true)]) ∧
    extract_json_from_text (wrapFence " \x7b\"a\":true\x7d ".toList) =
      some (JValue.obj [("a".toList, JValue.bool true)]) :=
  C6_values_preserved " \x7b\"a\":true\x7d ".toList
    [("a".toList, JValue.bool true)] rfl (by decide)
